import Mathlib

/-!
Verification of the proof-of-work ledger simulation in `block.py`.

The development shallowly embeds the Python source: dictionaries become a
first-order `Json` type, `json.dumps(-, sort_keys=True)` becomes `Json.dumps`
(keys sorted lexicographically by code point, separators `", "` and `": "`),
`hashlib.sha256(-).hexdigest()` becomes `sha256Hex` (a full SHA-256 over `Nat`
arithmetic), and the classes `Amount`, `Transaction`, `Block`, `Node` become
structures with their methods translated to pure functions.  Mutation is made
explicit: `time.time()` becomes an explicit `now` argument, the unbounded
mining loop takes fuel and returns `Option`, and `Node.process_txns` returns
the updated node.  Strings are modelled as `List Char` (the data in scope is
printable ASCII); braces are written with `\x7b`/`\x7d` escapes.
-/

/-- Strings of the model, as plain character lists. -/
abbrev Str := List Char

/-! ## Lexicographic key order (Python `str` comparison on code points) -/

/-- Boolean `≤` on strings, lexicographic by character code point.  This is the
order `sorted` uses on `str` keys in CPython's `json` encoder. -/
def keyLE : Str → Str → Bool
  | [], _ => true
  | c :: cs, d :: ds =>
    if c.toNat < d.toNat then true
    else if d.toNat < c.toNat then false
    else keyLE cs ds
  | _ :: _, [] => false

/-- Insert one key-value pair into a key-sorted list of pairs. -/
def insertPair (p : Str × α) : List (Str × α) → List (Str × α)
  | [] => [p]
  | q :: rest => if keyLE p.1 q.1 then p :: q :: rest else q :: insertPair p rest

/-- Insertion sort of key-value pairs by key, the model of
`sorted(dict.items())` as used by `json.dumps(-, sort_keys=True)` (dict keys
are distinct, so only the key part of each pair decides the order). -/
def sortPairs : List (Str × α) → List (Str × α)
  | [] => []
  | p :: rest => insertPair p (sortPairs rest)

/-! ## JSON values

A first-order encoding: arrays and objects are cons-chains inside the single
inductive, so every function below is structural and kernel-evaluable.  Only
`jnull`, `jint`, `jstr` and well-formed `jarr...`/`jobj...` spines arise from
the embedded program. -/

inductive Json where
  | jnull : Json
  | jint (n : Int) : Json
  | jstr (s : Str) : Json
  | jarrNil : Json
  | jarrCons (hd tl : Json) : Json
  | jobjNil : Json
  | jobjCons (k : Str) (v : Json) (tl : Json) : Json
  deriving DecidableEq

namespace Json

/-- Size measure; used as fuel for the serializer. -/
def jsize : Json → Nat
  | jnull => 1
  | jint _ => 1
  | jstr _ => 1
  | jarrNil => 1
  | jarrCons hd tl => 1 + jsize hd + jsize tl
  | jobjNil => 1
  | jobjCons _ v tl => 1 + jsize v + jsize tl

/-- Elements of an array spine. -/
def jelems : Json → List Json
  | jarrCons hd tl => hd :: jelems tl
  | _ => []

/-- Entries of an object spine. -/
def jentries : Json → List (Str × Json)
  | jobjCons k v tl => (k, v) :: jentries tl
  | _ => []

/-- Rebuild an array spine from a list of elements. -/
def arrOf : List Json → Json
  | [] => jarrNil
  | x :: xs => jarrCons x (arrOf xs)

/-- Rebuild an object spine from a list of entries. -/
def objOf : List (Str × Json) → Json
  | [] => jobjNil
  | p :: ps => jobjCons p.1 p.2 (objOf ps)

end Json

/-! ## Serialization: the model of `json.dumps(data, sort_keys=True)` -/

/-- Decimal digits of a positive natural, most significant first
(fuel-driven). -/
def natDigitsAux : Nat → Nat → Str
  | 0, _ => []
  | fuel + 1, n =>
    if n = 0 then [] else natDigitsAux fuel (n / 10) ++ [Char.ofNat (48 + n % 10)]

/-- Decimal rendering of a natural number. -/
def natChars (n : Nat) : Str :=
  if n = 0 then ['0'] else natDigitsAux (n + 1) n

/-- Rendering of an integer, as Python's `str(int)` / `json` do. -/
def intChars (n : Int) : Str :=
  if n < 0 then '-' :: natChars n.natAbs else natChars n.natAbs

/-- JSON string escaping.  The data in scope (identifiers, hex digests,
decimal digits, the fixed key names) is printable ASCII, for which `json`
escapes exactly the quote and the backslash. -/
def escapeChar (c : Char) : Str :=
  if c = '"' then ['\\', '"']
  else if c = '\\' then ['\\', '\\']
  else [c]

/-- Quoted JSON string literal. -/
def quoteChars (s : Str) : Str :=
  '"' :: (s.flatMap escapeChar) ++ ['"']

/-- Interleave a separator between the pieces. -/
def joinSep (sep : Str) : List Str → Str
  | [] => []
  | [x] => x
  | x :: xs => x ++ sep ++ joinSep sep xs

namespace Json

/-- Fuel-driven serializer.  One unit of fuel is spent per nesting level, so
any `fuel ≥ jsize j` is enough (`dumpsF_stable`).  Mirrors
`json.dumps(data, sort_keys=True)` with the default separators `", "` and
`": "`: object entries are emitted in sorted key order. -/
def dumpsF : Nat → Json → Str
  | 0, _ => []
  | fuel + 1, j =>
    match j with
    | jnull => ['n', 'u', 'l', 'l']
    | jint n => intChars n
    | jstr s => quoteChars s
    | jarrNil => ['[', ']']
    | jarrCons hd tl =>
      '[' :: joinSep [',', ' '] ((jelems (jarrCons hd tl)).map (dumpsF fuel)) ++ [']']
    | jobjNil => ['\x7b', '\x7d']
    | jobjCons k v tl =>
      '\x7b' :: joinSep [',', ' ']
          ((sortPairs (jentries (jobjCons k v tl))).map
            (fun p => quoteChars p.1 ++ [':', ' '] ++ dumpsF fuel p.2))
        ++ ['\x7d']

/-- The model of `json.dumps(j, sort_keys=True)`. -/
def dumps (j : Json) : Str := dumpsF (jsize j) j

end Json

/-! ## SHA-256 (`hashlib.sha256(...).hexdigest()`)

A complete SHA-256 over `Nat` arithmetic with explicit reduction modulo
`2 ^ 32`.  `sha256_abc` and `sha256_empty` below check the classical test
vectors against the model. -/

/-- Reduce to a 32-bit word. -/
def u32 (n : Nat) : Nat := n % 4294967296

/-- Right rotation of a 32-bit word by `k`. -/
def rotr (k n : Nat) : Nat := u32 ((n >>> k) ||| (n <<< (32 - k)))

/-- Round function Σ0. -/
def bigSigma0 (n : Nat) : Nat := rotr 2 n ^^^ rotr 13 n ^^^ rotr 22 n

/-- Round function Σ1. -/
def bigSigma1 (n : Nat) : Nat := rotr 6 n ^^^ rotr 11 n ^^^ rotr 25 n

/-- Schedule function σ0. -/
def smallSigma0 (n : Nat) : Nat := rotr 7 n ^^^ rotr 18 n ^^^ (n >>> 3)

/-- Schedule function σ1. -/
def smallSigma1 (n : Nat) : Nat := rotr 17 n ^^^ rotr 19 n ^^^ (n >>> 10)

/-- Choice function. -/
def chF (e f g : Nat) : Nat := (e &&& f) ^^^ ((e ^^^ 4294967295) &&& g)

/-- Majority function. -/
def majF (a b c : Nat) : Nat := (a &&& b) ^^^ (a &&& c) ^^^ (b &&& c)

/-- The eight working variables / hash state of SHA-256. -/
structure Hash8 where
  a : Nat
  b : Nat
  c : Nat
  d : Nat
  e : Nat
  f : Nat
  g : Nat
  h : Nat
  deriving DecidableEq

/-- Split a packed big-endian concatenation of 32-bit words into a list. -/
def unpack32 : Nat → Nat → List Nat
  | 0, _ => []
  | k + 1, n => unpack32 k (n >>> 32) ++ [u32 n]

/-- The 64 SHA-256 round constants of FIPS 180-4, packed big-endian:
the hex digits are the concatenation of `K 0 ... K 63`. -/
def sha256K : List Nat :=
  unpack32 64
    0x428a2f9871374491b5c0fbcfe9b5dba53956c25b59f111f1923f82a4ab1c5ed5d807aa9812835b01243185be550c7dc372be5d7480deb1fe9bdc06a7c19bf174e49b69c1efbe47860fc19dc6240ca1cc2de92c6f4a7484aa5cb0a9dc76f988da983e5152a831c66db00327c8bf597fc7c6e00bf3d5a7914706ca63511429296727b70a852e1b21384d2c6dfc53380d13650a7354766a0abb81c2c92e92722c85a2bfe8a1a81a664bc24b8b70c76c51a3d192e819d6990624f40e3585106aa07019a4c1161e376c082748774c34b0bcb5391c0cb34ed8aa4a5b9cca4f682e6ff3748f82ee78a5636f84c878148cc7020890befffaa4506cebbef9a3f7c67178f2

/-- The SHA-256 initial hash value of FIPS 180-4
(`6a09e667 bb67ae85 3c6ef372 a54ff53a 510e527f 9b05688c 1f83d9ab 5be0cd19`). -/
def sha256H0 : Hash8 :=
  ⟨1779033703, 3144134277, 1013904242, 2773480762,
   1359893119, 2600822924, 528734635, 1541459225⟩

/-- Big-endian bytes of the 64-bit message length in bits. -/
def lenBytes (bits : Nat) : List Nat :=
  [(bits >>> 56) % 256, (bits >>> 48) % 256, (bits >>> 40) % 256,
   (bits >>> 32) % 256, (bits >>> 24) % 256, (bits >>> 16) % 256,
   (bits >>> 8) % 256, bits % 256]

/-- SHA-256 padding: `0x80`, zeros to 56 mod 64, then the bit length. -/
def padBytes (msg : List Nat) : List Nat :=
  msg ++ 0x80 :: List.replicate ((119 - msg.length % 64) % 64) 0
    ++ lenBytes (msg.length * 8)

/-- Split into 64-byte chunks (fuel-driven; `fuel = l.length` suffices). -/
def chunksAux : Nat → List Nat → List (List Nat)
  | 0, _ => []
  | fuel + 1, l =>
    match l with
    | [] => []
    | x :: xs => (x :: xs).take 64 :: chunksAux fuel ((x :: xs).drop 64)

/-- Combine bytes into big-endian 32-bit words. -/
def wordsOfBytes : List Nat → List Nat
  | b0 :: b1 :: b2 :: b3 :: rest =>
    ((b0 <<< 24) + (b1 <<< 16) + (b2 <<< 8) + b3) :: wordsOfBytes rest
  | _ => []

/-- One extension step of the message schedule, appending word `ws.length`. -/
def scheduleStep (ws : List Nat) : List Nat :=
  let i := ws.length
  ws ++ [u32 (ws.getD (i - 16) 0 + smallSigma0 (ws.getD (i - 15) 0)
      + ws.getD (i - 7) 0 + smallSigma1 (ws.getD (i - 2) 0))]

/-- Extend the 16 chunk words to the 64 schedule words. -/
def scheduleAux : Nat → List Nat → List Nat
  | 0, ws => ws
  | k + 1, ws => scheduleAux k (scheduleStep ws)

/-- One compression round with schedule word `w` and constant `k`. -/
def roundStep (st : Hash8) (wk : Nat × Nat) : Hash8 :=
  let t1 := u32 (st.h + bigSigma1 st.e + chF st.e st.f st.g + wk.2 + wk.1)
  let t2 := u32 (bigSigma0 st.a + majF st.a st.b st.c)
  ⟨u32 (t1 + t2), st.a, st.b, st.c, u32 (st.d + t1), st.e, st.f, st.g⟩

/-- Word-wise sum of two hash states. -/
def addH (x y : Hash8) : Hash8 :=
  ⟨u32 (x.a + y.a), u32 (x.b + y.b), u32 (x.c + y.c), u32 (x.d + y.d),
   u32 (x.e + y.e), u32 (x.f + y.f), u32 (x.g + y.g), u32 (x.h + y.h)⟩

/-- Process one 64-byte chunk. -/
def processChunk (st : Hash8) (chunk : List Nat) : Hash8 :=
  addH st (((scheduleAux 48 (wordsOfBytes chunk)).zip sha256K).foldl roundStep st)

/-- SHA-256 of a byte sequence, as the eight final hash words. -/
def sha256Words (msg : List Nat) : Hash8 :=
  (chunksAux (padBytes msg).length (padBytes msg)).foldl processChunk sha256H0

/-- The sixteen hexadecimal digit characters, lowercase: codes 48-57 are
the decimal digits, codes 87+10 to 87+15 are `a`-`f`. -/
def hexChars : Str :=
  (List.range 16).map (fun n => Char.ofNat (if n < 10 then 48 + n else 87 + n))

/-- Lowercase hex character of a nibble. -/
def nibbleChar (n : Nat) : Char := hexChars.getD (n % 16) '0'

/-- Eight lowercase hex characters of a 32-bit word. -/
def wordHex (w : Nat) : Str :=
  [nibbleChar (w >>> 28), nibbleChar (w >>> 24), nibbleChar (w >>> 20),
   nibbleChar (w >>> 16), nibbleChar (w >>> 12), nibbleChar (w >>> 8),
   nibbleChar (w >>> 4), nibbleChar w]

/-- The model of `hashlib.sha256(msg).hexdigest()`. -/
def sha256Hex (msg : List Nat) : Str :=
  let st := sha256Words msg
  wordHex st.a ++ wordHex st.b ++ wordHex st.c ++ wordHex st.d
    ++ wordHex st.e ++ wordHex st.f ++ wordHex st.g ++ wordHex st.h

/-- The digest as one 256-bit natural, for stating the standard test
vectors compactly. -/
def sha256Nat (msg : List Nat) : Nat :=
  let st := sha256Words msg
  ((((((st.a <<< 32 ||| st.b) <<< 32 ||| st.c) <<< 32 ||| st.d) <<< 32 ||| st.e)
      <<< 32 ||| st.f) <<< 32 ||| st.g) <<< 32 ||| st.h

/-- UTF-8 encoding of a model string; the data in scope is ASCII, where the
encoding is the identity on code points. -/
def utf8 (s : Str) : List Nat := s.map Char.toNat

/-- The model of the module-level `get_hash` of `block.py`: serialize with
sorted keys, UTF-8 encode, SHA-256, hex digest.  (The `print` of the encoded
data in the source has no bearing on the returned value and is dropped.) -/
def get_hash (d : Json) : Str := sha256Hex (utf8 (Json.dumps d))

/-- The module-level `get_hash` under a clash-free name, so that the method
`Block.get_hash` can refer to it without root qualification. -/
def canonicalHash : Json → Str := get_hash

/-! ## The data model of `block.py` -/

/-- Key name `uuid`. -/
def kUuid : Str := ['u', 'u', 'i', 'd']

/-- Key name `amount`. -/
def kAmount : Str := ['a', 'm', 'o', 'u', 'n', 't']

/-- Key name `inputs`. -/
def kInputs : Str := ['i', 'n', 'p', 'u', 't', 's']

/-- Key name `outputs`. -/
def kOutputs : Str := ['o', 'u', 't', 'p', 'u', 't', 's']

/-- Key name `timestamp`. -/
def kTimestamp : Str := ['t', 'i', 'm', 'e', 's', 't', 'a', 'm', 'p']

/-- Key name `txns`. -/
def kTxns : Str := ['t', 'x', 'n', 's']

/-- Key name `header`. -/
def kHeader : Str := ['h', 'e', 'a', 'd', 'e', 'r']

/-- Key name `body`. -/
def kBody : Str := ['b', 'o', 'd', 'y']

/-- Key name `prev_hash`. -/
def kPrevHash : Str := ['p', 'r', 'e', 'v', '_', 'h', 'a', 's', 'h']

/-- Key name `body_hash`. -/
def kBodyHash : Str := ['b', 'o', 'd', 'y', '_', 'h', 'a', 's', 'h']

/-- Key name `difficulty`. -/
def kDifficulty : Str := ['d', 'i', 'f', 'f', 'i', 'c', 'u', 'l', 't', 'y']

/-- Key name `nonce`. -/
def kNonce : Str := ['n', 'o', 'n', 'c', 'e']

/-- Scan an entry list for a key (first match). -/
def lookupKey (key : Str) : List (Str × Json) → Option Json
  | [] => none
  | p :: ps => if p.1 = key then some p.2 else lookupKey key ps

/-- Dictionary lookup, `d[key]`: first entry with the given key. -/
def Json.jlookup (d : Json) (key : Str) : Option Json :=
  lookupKey key (Json.jentries d)

/-- The fixed mining reward, `MINING_COST = 1`. -/
def MINING_COST : Int := 1

/-- The `Amount` class: an owner identifier and a magnitude. -/
structure Amount where
  uuid : Str
  amount : Int
  deriving DecidableEq

namespace Amount

/-- The source's `Amount.__eq__`: both fields compared. -/
def beq (x y : Amount) : Bool :=
  decide (x.uuid = y.uuid) && decide (x.amount = y.amount)

/-- The source's `Amount.todict`. -/
def todict (a : Amount) : Json :=
  Json.jobjCons kUuid (Json.jstr a.uuid)
    (Json.jobjCons kAmount (Json.jint a.amount) Json.jobjNil)

/-- The source's `Amount.fromdict`, i.e. `cls(**d)`: requires exactly the
keys `uuid` and `amount` with values of the declared shapes. -/
def fromdict (d : Json) : Option Amount :=
  match d.jlookup kUuid, d.jlookup kAmount with
  | some (Json.jstr u), some (Json.jint a) =>
    if (Json.jentries d).length = 2 then some ⟨u, a⟩ else none
  | _, _ => none

end Amount

/-- The `Transaction` class: inputs, outputs and a timestamp. -/
structure Transaction where
  inputs : List Amount
  outputs : List Amount
  timestamp : Int
  deriving DecidableEq

namespace Transaction

/-- The source's `Transaction.__init__`.  The line
`self.timestamp = timestamp or time.time()` keeps the argument only when it
is truthy: both `None` and `0` are replaced by the clock value `now`. -/
def init (inputs outputs : List Amount) (timestamp : Option Int) (now : Int) :
    Transaction :=
  ⟨inputs, outputs,
    match timestamp with
    | some t => if t = 0 then now else t
    | none => now⟩

/-- The source's `Transaction.__eq__`: inputs, outputs and timestamp. -/
def beq (x y : Transaction) : Bool :=
  decide (x.inputs = y.inputs) && decide (x.outputs = y.outputs)
    && decide (x.timestamp = y.timestamp)

/-- The source's `Transaction.todict`. -/
def todict (t : Transaction) : Json :=
  Json.jobjCons kInputs (Json.arrOf (t.inputs.map Amount.todict))
    (Json.jobjCons kOutputs (Json.arrOf (t.outputs.map Amount.todict))
      (Json.jobjCons kTimestamp (Json.jint t.timestamp) Json.jobjNil))

/-- Decode a list of amount records, as the comprehension
`[Amount.fromdict(a) for a in d[...]]` does (any failure aborts). -/
def amountsFrom : List Json → Option (List Amount)
  | [] => some []
  | d :: ds =>
    match Amount.fromdict d, amountsFrom ds with
    | some a, some rest => some (a :: rest)
    | _, _ => none

/-- The source's `Transaction.fromdict`: reads the three fields and calls the
constructor, so the decoded timestamp passes through the truthiness test of
`__init__` again. -/
def fromdict (d : Json) (now : Int) : Option Transaction :=
  match d.jlookup kTimestamp, d.jlookup kInputs, d.jlookup kOutputs with
  | some (Json.jint ts), some din, some dout =>
    match amountsFrom (Json.jelems din), amountsFrom (Json.jelems dout) with
    | some ins, some outs => some (init ins outs (some ts) now)
    | _, _ => none
  | _, _, _ => none

end Transaction

/-- The `Block` class.  `nonce = none` is the unsolved state. -/
structure Block where
  prev_hash : Str
  txns : List Transaction
  nonce : Option Int
  difficulty : Int
  deriving DecidableEq

/-- Render an optional integer as a JSON value (`None` becomes `null`). -/
def jsonOfOptInt : Option Int → Json
  | some n => Json.jint n
  | none => Json.jnull

namespace Block

/-- The source's `Block.__init__`: the nonce starts as `None`. -/
def init (txns : List Transaction) (prev_hash : Str) (difficulty : Int) :
    Block :=
  ⟨prev_hash, txns, none, difficulty⟩

/-- The source's `Block.__eq__`: only `prev_hash` and `txns` compared. -/
def beq (x y : Block) : Bool :=
  decide (x.prev_hash = y.prev_hash) && decide (x.txns = y.txns)

/-- The `body` dictionary built inside `Block.todict`. -/
def body (b : Block) : Json :=
  Json.jobjCons kTxns (Json.arrOf (b.txns.map Transaction.todict)) Json.jobjNil

/-- The source's `Block.todict(nonce=None)`: a passed nonce overrides the
stored one (`nonce = nonce if nonce is not None else self.nonce`), and the
header embeds the canonical hash of the body. -/
def todict (b : Block) (nonce : Option Int) : Json :=
  let nonce' := match nonce with | some n => some n | none => b.nonce
  let bd := body b
  Json.jobjCons kHeader
    (Json.jobjCons kPrevHash (Json.jstr b.prev_hash)
      (Json.jobjCons kBodyHash (Json.jstr (get_hash bd))
        (Json.jobjCons kDifficulty (Json.jint b.difficulty)
          (Json.jobjCons kNonce (jsonOfOptInt nonce') Json.jobjNil))))
    (Json.jobjCons kBody bd Json.jobjNil)

/-- The source's `Block.dumps`: the JSON text of `todict()`. -/
def dumps (b : Block) : Str := Json.dumps (b.todict none)

/-- The source's `Block.get_hash(nonce)`: canonical hash of `todict(nonce)`.
`validate_hash` calls it with the stored (possibly `None`) nonce, so the
argument is optional here. -/
def get_hash (b : Block) (nonce : Option Int) : Str :=
  canonicalHash (b.todict nonce)

/-- Decode a list of transaction records (any failure aborts). -/
def txnsFrom (now : Int) : List Json → Option (List Transaction)
  | [] => some []
  | d :: ds =>
    match Transaction.fromdict d now, txnsFrom now ds with
    | some t, some rest => some (t :: rest)
    | _, _ => none

/-- The source's `Block.fromdict`: reads `prev_hash` and `difficulty` from the
header and the transactions from the body, then calls the constructor — the
stored `nonce` and `body_hash` of the record are not restored. -/
def fromdict (d : Json) (now : Int) : Option Block :=
  match d.jlookup kHeader, d.jlookup kBody with
  | some hdr, some bd =>
    match hdr.jlookup kPrevHash, hdr.jlookup kDifficulty, bd.jlookup kTxns with
    | some (Json.jstr ph), some (Json.jint diff), some dtxns =>
      match txnsFrom now (Json.jelems dtxns) with
      | some ts => some (init ts ph diff)
      | none => none
    | _, _, _ => none
  | _, _ => none

end Block

/-- The source's `validate_hash(block, hash)`:
`block.get_hash(block.nonce) == hash`. -/
def validate_hash (b : Block) (h : Str) : Bool :=
  decide (b.get_hash b.nonce = h)

/-! ## Persistence adapter (`to_db` / `from_db`)

The SQL layer stores, per block and in insertion order, exactly the text
`b.dumps()`, and `from_db` recovers the record with `json.loads` before
calling `Block.fromdict`; `json.loads` inverts `json.dumps` on such records
by the contract of the standard library, so the rows are modelled at the
parsed level, as the stored dictionaries. -/

/-- The source's `to_db`: one row per block, in order, holding the block's
serialized record. -/
def to_db (blocks : List Block) : List Json :=
  blocks.map (fun b => b.todict none)

/-- The source's `from_db`: rebuild each stored record with
`Block.fromdict`, in row order. -/
def from_db (rows : List Json) (now : Int) : Option (List Block) :=
  match rows with
  | [] => some []
  | r :: rs =>
    match Block.fromdict r now, from_db rs now with
    | some b, some bs => some (b :: bs)
    | _, _ => none

/-! ## The `Node` class and the mining loop -/

/-- The `Node` class: an identity and the local chain. -/
structure Node where
  uuid : Str
  blocks : List Block
  deriving DecidableEq

namespace Node

/-- The source's `Node.__init__`: empty chain. -/
def init (uuid : Str) : Node := ⟨uuid, []⟩

end Node

/-- The `prev_hash` choice of `process_txns`: the chain tail's own
`prev_hash` field when the chain is non-empty, the empty string otherwise. -/
def Node.chainLink (node : Node) : Str :=
  match node.blocks.getLast? with
  | some b => b.prev_hash
  | none => []

/-- The coinbase transaction `process_txns` builds: no inputs, one output
crediting the node's identity the fixed reward. -/
def Node.coinbase (node : Node) (timestamp : Option Int) (now : Int) :
    Transaction :=
  Transaction.init [] [⟨node.uuid, MINING_COST⟩] timestamp now

/-- The `while True` search of `Node.process_txns`, made total with fuel:
starting from `nonce`, return the first nonce (with its digest) whose digest
starts with `difficulty` zero characters, or `none` when the fuel runs out
first. -/
def mineLoop (block : Block) (difficulty : Int) (nonce : Int) :
    Nat → Option (Int × Str)
  | 0 => none
  | fuel + 1 =>
    let h := block.get_hash (some nonce)
    if (List.replicate difficulty.toNat '0').isPrefixOf h then some (nonce, h)
    else mineLoop block difficulty (nonce + 1) fuel

/-- The source's `Node.process_txns(txns, difficulty=1, timestamp=None)`,
state-passing: the coinbase transaction is put in front of the batch, the new
block links to the chain tail's own `prev_hash` field (empty string for an
empty chain), the mining search runs from nonce 0, and on success the solved
block is appended to the chain; the updated node is returned alongside the
Python return value `(block, hash)`. -/
def Node.processTxns (node : Node) (txns : List Transaction)
    (difficulty : Int) (timestamp : Option Int) (now : Int) (fuel : Nat) :
    Option (Block × Str × Node) :=
  let txns' := node.coinbase timestamp now :: txns
  let block := Block.init txns' node.chainLink difficulty
  match mineLoop block difficulty 0 fuel with
  | some (n, h) =>
    some ({ block with nonce := some n }, h,
      { node with blocks := node.blocks ++ [{ block with nonce := some n }] })
  | none => none

/-! ## Aliasing model of `process_txns`

`txns.insert(0, ...)` mutates the caller's list object, and the constructed
`Block` stores a reference to that same object.  To state this, the
transaction list lives in an explicit store of list cells and the block keeps
the cell index; the functional model above is recovered by dereferencing. -/

/-- A store of transaction-list objects, addressed by index. -/
structure Store where
  cells : List (List Transaction)
  deriving DecidableEq

/-- Read the list object at a reference. -/
def Store.deref (st : Store) (r : Nat) : List Transaction :=
  st.cells.getD r []

/-- Overwrite the list object at a reference. -/
def Store.write (st : Store) (r : Nat) (v : List Transaction) : Store :=
  ⟨st.cells.set r v⟩

/-- A `Block` that holds a reference to its transaction-list object, as the
Python object does. -/
structure BlockR where
  prev_hash : Str
  txnsRef : Nat
  nonce : Option Int
  difficulty : Int
  deriving DecidableEq

/-- The functional view of a referencing block under a store. -/
def BlockR.view (b : BlockR) (st : Store) : Block :=
  ⟨b.prev_hash, st.deref b.txnsRef, b.nonce, b.difficulty⟩

/-- A `Node` over referencing blocks. -/
structure NodeR where
  uuid : Str
  blocks : List BlockR
  deriving DecidableEq

/-- `Node.process_txns` in the aliasing model: the caller passes the
reference `r` of its transaction-list object; `txns.insert(0, coinbase)`
rewrites that cell; the block is built over the same reference; mining reads
the block through the store. -/
def NodeR.processTxnsR (node : NodeR) (r : Nat) (st : Store)
    (difficulty : Int) (timestamp : Option Int) (now : Int) (fuel : Nat) :
    Option (BlockR × Str × NodeR × Store) :=
  let coin := Transaction.init [] [⟨node.uuid, MINING_COST⟩] timestamp now
  let st' := st.write r (coin :: st.deref r)
  let prev_hash : Str :=
    match node.blocks.getLast? with
    | some b => b.prev_hash
    | none => []
  let block : BlockR := ⟨prev_hash, r, none, difficulty⟩
  match mineLoop (block.view st') difficulty 0 fuel with
  | some (n, h) =>
    some ({ block with nonce := some n }, h,
      ⟨node.uuid, node.blocks ++ [{ block with nonce := some n }]⟩, st')
  | none => none

/-- State-passing reading of `Block.get_hash`: a Python method receives the
object and may in general update its fields; the bodies of `todict` and
`get_hash` bind only locals and assign no field of `self`, so the translation
returns the receiver unchanged next to the computed digest. -/
def Block.getHashS (b : Block) (nonce : Option Int) : Block × Str :=
  (b, canonicalHash (b.todict nonce))

/-- Key-sortedness of an entry list. -/
def KeySorted (l : List (Str × α)) : Prop :=
  l.Pairwise (fun x y => keyLE x.1 y.1 = true)

namespace Json

/-- Recursive canonical form: object entries sorted by key at every level.
Two structured records have identical logical content, regardless of field
insertion order, exactly when their canonical forms coincide.  Fuel-driven
with the same budget as the serializer. -/
def canonF : Nat → Json → Json
  | 0, j => j
  | fuel + 1, j =>
    match j with
    | jarrCons hd tl => arrOf ((jelems (jarrCons hd tl)).map (canonF fuel))
    | jobjCons k v tl =>
      objOf (sortPairs
        ((jentries (jobjCons k v tl)).map (fun p => (p.1, canonF fuel p.2))))
    | x => x

/-- Canonical form of a value. -/
def canon (j : Json) : Json := canonF (jsize j) j

/-- All object keys distinct, at every nesting level — the inherent shape of
records that come from Python dictionaries. -/
def nodupKeys : Json → Bool
  | jarrCons hd tl => nodupKeys hd && nodupKeys tl
  | jobjCons k v tl =>
    !decide (k ∈ (jentries tl).map Prod.fst) && nodupKeys v && nodupKeys tl
  | _ => true

end Json

/-! ## Sanity checks of the hash model

The two classical SHA-256 test vectors, and the serialization of a sample
record, pin the embedding of `hashlib.sha256` and `json.dumps` down. -/

set_option maxRecDepth 1000000 in
/-- SHA-256 of `"abc"` agrees with the standard test vector. -/
theorem sha256_abc :
    sha256Nat (utf8 ['a', 'b', 'c']) =
      0xba7816bf8f01cfea414140de5dae2223b00361a396177a9cb410ff61f20015ad := by
  decide

set_option maxRecDepth 1000000 in
/-- SHA-256 of the empty message agrees with the standard test vector. -/
theorem sha256_empty :
    sha256Nat (utf8 []) =
      0xe3b0c44298fc1c149afbf4c8996fb92427ae41e4649b934ca495991b7852b855 := by
  decide

/-- The serializer emits sorted keys with the default separators, as
`json.dumps({"uuid": "m", "amount": 1}, sort_keys=True)` does. -/
theorem dumps_amount_sample :
    Json.dumps (Amount.todict ⟨['m'], 1⟩) =
      ['\x7b', '"', 'a', 'm', 'o', 'u', 'n', 't', '"', ':', ' ', '1', ',',
       ' ', '"', 'u', 'u', 'i', 'd', '"', ':', ' ', '"', 'm', '"', '\x7d'] := by
  decide

/-! ## Order and sorting lemmas -/

/-- `keyLE` is total. -/
theorem keyLE_total : ∀ a b : Str, keyLE a b = true ∨ keyLE b a = true := by
  intro a
  induction a with
  | nil => intro b; left; rfl
  | cons c cs ih =>
    intro b
    cases b with
    | nil => right; rfl
    | cons d ds =>
      by_cases h1 : c.toNat < d.toNat
      · left; simp [keyLE, h1]
      · by_cases h2 : d.toNat < c.toNat
        · right; simp [keyLE, h1, h2]
        · simpa [keyLE, h1, h2] using ih ds

/-- `keyLE` is transitive. -/
theorem keyLE_trans : ∀ a b c : Str,
    keyLE a b = true → keyLE b c = true → keyLE a c = true := by
  intro a
  induction a with
  | nil => intro b c _ _; rfl
  | cons x xs ih =>
    intro b c hab hbc
    cases b with
    | nil => simp [keyLE] at hab
    | cons y ys =>
      cases c with
      | nil => simp [keyLE] at hbc
      | cons z zs =>
        simp only [keyLE] at hab hbc ⊢
        by_cases hxy : x.toNat < y.toNat
        · by_cases hyz : y.toNat < z.toNat
          · simp [Nat.lt_trans hxy hyz]
          · by_cases hzy : z.toNat < y.toNat
            · simp [hyz, hzy] at hbc
            · have : y.toNat = z.toNat := by omega
              simp [this ▸ hxy]
        · by_cases hyx : y.toNat < x.toNat
          · simp [hxy, hyx] at hab
          · have hxy' : x.toNat = y.toNat := by omega
            by_cases hyz : y.toNat < z.toNat
            · simp [hxy' ▸ hyz]
            · by_cases hzy : z.toNat < y.toNat
              · simp [hyz, hzy] at hbc
              · have hyz' : y.toNat = z.toNat := by omega
                simp only [hxy', hyz', lt_irrefl, if_false] at hab hbc ⊢
                exact ih ys zs hab hbc

/-- Inserting is a permutation. -/
theorem insertPair_perm (p : Str × α) :
    ∀ l : List (Str × α), List.Perm (insertPair p l) (p :: l) := by
  intro l
  induction l with
  | nil => exact List.Perm.refl _
  | cons q rest ih =>
    simp only [insertPair]
    split
    · exact List.Perm.refl _
    · exact (ih.cons q).trans (List.Perm.swap p q rest)

/-- Sorting is a permutation. -/
theorem sortPairs_perm : ∀ l : List (Str × α), List.Perm (sortPairs l) l := by
  intro l
  induction l with
  | nil => exact List.Perm.refl _
  | cons p rest ih =>
    exact (insertPair_perm p (sortPairs rest)).trans (ih.cons p)

/-- Inserting into a sorted list keeps it sorted. -/
theorem insertPair_sorted (p : Str × α) :
    ∀ l : List (Str × α), KeySorted l → KeySorted (insertPair p l) := by
  intro l
  induction l with
  | nil => intro _; simp [insertPair, KeySorted]
  | cons q rest ih =>
    intro hs
    rw [KeySorted, List.pairwise_cons] at hs
    obtain ⟨hq, hrest⟩ := hs
    simp only [insertPair]
    split
    · rename_i hle
      rw [KeySorted, List.pairwise_cons]
      refine ⟨?_, List.pairwise_cons.mpr ⟨hq, hrest⟩⟩
      intro b hb
      rcases List.mem_cons.mp hb with rfl | hb
      · exact hle
      · exact keyLE_trans _ _ _ hle (hq b hb)
    · rename_i hnle
      have hqp : keyLE q.1 p.1 = true :=
        (keyLE_total p.1 q.1).resolve_left hnle
      rw [KeySorted, List.pairwise_cons]
      constructor
      · intro b hb
        have := (insertPair_perm p rest).mem_iff.mp hb
        rcases List.mem_cons.mp this with rfl | hb'
        · exact hqp
        · exact hq b hb'
      · exact ih hrest

/-- The result of sorting is sorted. -/
theorem sortPairs_sorted : ∀ l : List (Str × α), KeySorted (sortPairs l) := by
  intro l
  induction l with
  | nil => simp [sortPairs, KeySorted]
  | cons p rest ih => exact insertPair_sorted p _ ih

/-- A sorted list is a fixed point of sorting. -/
theorem sortPairs_of_sorted :
    ∀ l : List (Str × α), KeySorted l → sortPairs l = l := by
  intro l
  induction l with
  | nil => intro _; rfl
  | cons q rest ih =>
    intro hs
    rw [KeySorted, List.pairwise_cons] at hs
    obtain ⟨hq, hrest⟩ := hs
    simp only [sortPairs, ih hrest]
    cases rest with
    | nil => rfl
    | cons r rs =>
      simp [insertPair, hq r (List.mem_cons_self r rs)]

/-- Sorting is idempotent. -/
theorem sortPairs_idem (l : List (Str × α)) :
    sortPairs (sortPairs l) = sortPairs l :=
  sortPairs_of_sorted _ (sortPairs_sorted l)

/-- Key-preserving maps commute with insertion. -/
theorem insertPair_map (f : Str × α → Str × β) (hf : ∀ q, (f q).1 = q.1)
    (p : Str × α) :
    ∀ l : List (Str × α), insertPair (f p) (l.map f) = (insertPair p l).map f := by
  intro l
  induction l with
  | nil => rfl
  | cons q rest ih =>
    simp only [List.map_cons, insertPair, hf p, hf q]
    split
    · simp
    · simp [ih]

/-- Key-preserving maps commute with sorting. -/
theorem sortPairs_map (f : Str × α → Str × β) (hf : ∀ q, (f q).1 = q.1) :
    ∀ l : List (Str × α), sortPairs (l.map f) = (sortPairs l).map f := by
  intro l
  induction l with
  | nil => rfl
  | cons p rest ih => simp only [List.map_cons, sortPairs, ih, insertPair_map f hf]

/-! ## Structural lemmas about `Json` -/

namespace Json

/-- Every value has positive size. -/
theorem jsize_pos : ∀ j : Json, 1 ≤ jsize j := by
  intro j
  cases j <;> simp [jsize] <;> omega

/-- Array elements are smaller than the array. -/
theorem mem_jelems_size : ∀ j x, x ∈ jelems j → jsize x < jsize j := by
  intro j
  induction j with
  | jarrCons hd tl ih1 ih2 =>
    intro x hx
    rcases List.mem_cons.mp hx with rfl | hx'
    · simp [jsize]; omega
    · have := ih2 x hx'
      simp [jsize]; omega
  | _ => intro x hx; simp [jelems] at hx

/-- Object entry values are smaller than the object. -/
theorem mem_jentries_size : ∀ j p, p ∈ jentries j → jsize p.2 < jsize j := by
  intro j
  induction j with
  | jobjCons k v tl ih1 ih2 =>
    intro p hp
    rcases List.mem_cons.mp hp with rfl | hp'
    · simp [jsize]; omega
    · have := ih2 p hp'
      simp [jsize]; omega
  | _ => intro p hp; simp [jentries] at hp

/-- `jentries` inverts `objOf`. -/
theorem jentries_objOf : ∀ l : List (Str × Json), jentries (objOf l) = l := by
  intro l
  induction l with
  | nil => rfl
  | cons p ps ih => simp [objOf, jentries, ih]

/-- `jelems` inverts `arrOf`. -/
theorem jelems_arrOf : ∀ l : List Json, jelems (arrOf l) = l := by
  intro l
  induction l with
  | nil => rfl
  | cons x xs ih => simp [arrOf, jelems, ih]

/-- Size of a rebuilt object spine. -/
theorem jsize_objOf : ∀ l : List (Str × Json),
    jsize (objOf l) = 1 + (l.map (fun p => 1 + jsize p.2)).sum := by
  intro l
  induction l with
  | nil => rfl
  | cons p ps ih => simp [objOf, jsize, ih]; omega

/-- Size of a rebuilt array spine. -/
theorem jsize_arrOf : ∀ l : List Json,
    jsize (arrOf l) = 1 + (l.map (fun x => 1 + jsize x)).sum := by
  intro l
  induction l with
  | nil => rfl
  | cons x xs ih => simp [arrOf, jsize, ih]; omega

/-- The entry sizes of any value are bounded by its size. -/
theorem jsize_entries_le : ∀ j : Json,
    1 + ((jentries j).map (fun p => 1 + jsize p.2)).sum ≤ jsize j := by
  intro j
  induction j with
  | jobjCons k v tl ih1 ih2 =>
    simp only [jentries, List.map_cons, List.sum_cons, jsize]
    simp only [jentries] at ih2
    omega
  | jarrCons hd tl ih1 ih2 => simp [jentries, jsize]; omega
  | _ => simp [jentries, jsize]

/-- The element sizes of any value are bounded by its size. -/
theorem jsize_elems_le : ∀ j : Json,
    1 + ((jelems j).map (fun x => 1 + jsize x)).sum ≤ jsize j := by
  intro j
  induction j with
  | jarrCons hd tl ih1 ih2 =>
    simp only [jelems, List.map_cons, List.sum_cons, jsize]
    simp only [jelems] at ih2
    omega
  | jobjCons k v tl ih1 ih2 => simp [jelems, jsize]; omega
  | _ => simp [jelems, jsize]

/-- Canonicalization does not grow the size. -/
theorem canonF_size_le : ∀ fuel j, jsize j ≤ fuel → jsize (canonF fuel j) ≤ jsize j := by
  intro fuel
  induction fuel with
  | zero => intro j hj; have := jsize_pos j; omega
  | succ a ih =>
    intro j hj
    cases j with
    | jarrCons hd tl =>
      simp only [canonF, jsize_arrOf, List.map_map]
      have hpt : ∀ x ∈ jelems (jarrCons hd tl),
          ((fun x => 1 + jsize x) ∘ canonF a) x ≤ 1 + jsize x := by
        intro x hx
        have hlt := mem_jelems_size (jarrCons hd tl) x hx
        have := ih x (by omega)
        simpa using by omega
      have hsum := List.sum_le_sum hpt
      have := jsize_elems_le (jarrCons hd tl)
      omega
    | jobjCons k v tl =>
      simp only [canonF, jsize_objOf]
      have hperm : List.Perm
          ((sortPairs ((jentries (jobjCons k v tl)).map
              (fun p => (p.1, canonF a p.2)))).map (fun p => 1 + jsize p.2))
          (((jentries (jobjCons k v tl)).map
              (fun p => (p.1, canonF a p.2))).map (fun p => 1 + jsize p.2)) :=
        (sortPairs_perm _).map _
      rw [hperm.sum_eq, List.map_map]
      have hpt : ∀ p ∈ jentries (jobjCons k v tl),
          ((fun p => 1 + jsize p.2) ∘ fun p => (p.1, canonF a p.2)) p
            ≤ 1 + jsize p.2 := by
        intro p hp
        have hlt := mem_jentries_size (jobjCons k v tl) p hp
        have := ih p.2 (by omega)
        simpa using by omega
      have hsum := List.sum_le_sum hpt
      have := jsize_entries_le (jobjCons k v tl)
      omega
    | jnull => simp [canonF]
    | jint n => simp [canonF]
    | jstr s => simp [canonF]
    | jarrNil => simp [canonF]
    | jobjNil => simp [canonF]

/-- Unfolding of the serializer on a rebuilt object spine. -/
theorem dumpsF_objOf (fuel : Nat) : ∀ E : List (Str × Json),
    dumpsF (fuel + 1) (objOf E) =
      '\x7b' :: joinSep [',', ' ']
          ((sortPairs E).map
            (fun p => quoteChars p.1 ++ [':', ' '] ++ dumpsF fuel p.2))
        ++ ['\x7d'] := by
  intro E
  cases E with
  | nil => rfl
  | cons p ps =>
    show dumpsF (fuel + 1) (jobjCons p.1 p.2 (objOf ps)) = _
    simp only [dumpsF, jentries, jentries_objOf]

/-- Unfolding of the serializer on a rebuilt array spine. -/
theorem dumpsF_arrOf (fuel : Nat) : ∀ E : List Json,
    dumpsF (fuel + 1) (arrOf E) =
      '[' :: joinSep [',', ' '] (E.map (dumpsF fuel)) ++ [']'] := by
  intro E
  cases E with
  | nil => rfl
  | cons x xs =>
    show dumpsF (fuel + 1) (jarrCons x (arrOf xs)) = _
    simp only [dumpsF, jelems, jelems_arrOf]

/-- Any fuel at least the size of the value serializes it the same way. -/
theorem dumpsF_stable : ∀ f g j, jsize j ≤ f → jsize j ≤ g →
    dumpsF f j = dumpsF g j := by
  intro f
  induction f with
  | zero => intro g j hf _; have := jsize_pos j; omega
  | succ a ih =>
    intro g j hf hg
    cases g with
    | zero => have := jsize_pos j; omega
    | succ b =>
      cases j with
      | jarrCons hd tl =>
        have hmap : (jelems (jarrCons hd tl)).map (dumpsF a)
            = (jelems (jarrCons hd tl)).map (dumpsF b) := by
          apply List.map_congr_left
          intro x hx
          have hlt := mem_jelems_size (jarrCons hd tl) x hx
          exact ih b x (by omega) (by omega)
        simp only [dumpsF, hmap]
      | jobjCons k v tl =>
        have hmap : (sortPairs (jentries (jobjCons k v tl))).map
              (fun p => quoteChars p.1 ++ [':', ' '] ++ dumpsF a p.2)
            = (sortPairs (jentries (jobjCons k v tl))).map
              (fun p => quoteChars p.1 ++ [':', ' '] ++ dumpsF b p.2) := by
          apply List.map_congr_left
          intro p hp
          have hp' := (sortPairs_perm _).mem_iff.mp hp
          have hlt := mem_jentries_size (jobjCons k v tl) p hp'
          have := ih b p.2 (by omega) (by omega)
          simp [this]
        simp only [dumpsF, hmap]
      | jnull => rfl
      | jint n => rfl
      | jstr s => rfl
      | jarrNil => rfl
      | jobjNil => rfl

/-- Serializing the canonical form gives the same text as serializing the
value itself: the serializer already sorts keys at every level. -/
theorem dumpsF_canonF : ∀ fuel j, jsize j ≤ fuel →
    dumpsF fuel (canonF fuel j) = dumpsF fuel j := by
  intro fuel
  induction fuel with
  | zero => intro j hj; have := jsize_pos j; omega
  | succ a ih =>
    intro j hj
    cases j with
    | jarrCons hd tl =>
      show dumpsF (a + 1) (arrOf ((jelems (jarrCons hd tl)).map (canonF a))) = _
      rw [dumpsF_arrOf, List.map_map]
      have hmap : (jelems (jarrCons hd tl)).map (dumpsF a ∘ canonF a)
          = (jelems (jarrCons hd tl)).map (dumpsF a) := by
        apply List.map_congr_left
        intro x hx
        have hlt := mem_jelems_size (jarrCons hd tl) x hx
        simpa using ih x (by omega)
      simp only [dumpsF, hmap]
    | jobjCons k v tl =>
      show dumpsF (a + 1) (objOf (sortPairs
          ((jentries (jobjCons k v tl)).map (fun p => (p.1, canonF a p.2))))) = _
      rw [dumpsF_objOf, sortPairs_idem,
        sortPairs_map (fun p => (p.1, canonF a p.2)) (fun q => rfl),
        List.map_map]
      have hmap : (sortPairs (jentries (jobjCons k v tl))).map
            ((fun p => quoteChars p.1 ++ [':', ' '] ++ dumpsF a p.2)
              ∘ fun p => (p.1, canonF a p.2))
          = (sortPairs (jentries (jobjCons k v tl))).map
            (fun p => quoteChars p.1 ++ [':', ' '] ++ dumpsF a p.2) := by
        apply List.map_congr_left
        intro p hp
        have hp' := (sortPairs_perm _).mem_iff.mp hp
        have hlt := mem_jentries_size (jobjCons k v tl) p hp'
        have := ih p.2 (by omega)
        simp [this]
      simp only [dumpsF, hmap]
    | jnull => rfl
    | jint n => rfl
    | jstr s => rfl
    | jarrNil => rfl
    | jobjNil => rfl

/-- Values with the same canonical form serialize to the same text. -/
theorem dumps_eq_of_canon_eq (j1 j2 : Json) (h : canon j1 = canon j2) :
    dumps j1 = dumps j2 := by
  have h1 : dumps j1 = dumpsF (jsize j1) (canon j1) :=
    (dumpsF_canonF (jsize j1) j1 le_rfl).symm
  have h2 : dumps j2 = dumpsF (jsize j2) (canon j2) :=
    (dumpsF_canonF (jsize j2) j2 le_rfl).symm
  have hc1 : jsize (canon j1) ≤ jsize j1 := canonF_size_le _ _ le_rfl
  have hc2 : jsize (canon j1) ≤ jsize j2 := by
    rw [h]; exact canonF_size_le _ _ le_rfl
  rw [h1, h2, ← h]
  exact dumpsF_stable (jsize j1) (jsize j2) (canon j1) hc1 hc2

end Json

/-! ## Shape of the hex digest -/

/-- A nibble character is a lowercase hex digit. -/
theorem nibbleChar_mem (n : Nat) : nibbleChar n ∈ hexChars := by
  have hb : ∀ m < 16, hexChars.getD m '0' ∈ hexChars := by decide
  exact hb (n % 16) (Nat.mod_lt _ (by omega))

/-- Every character of a word rendering is a lowercase hex digit. -/
theorem mem_wordHex (w : Nat) (c : Char) (hc : c ∈ wordHex w) : c ∈ hexChars := by
  simp only [wordHex, List.mem_cons, List.not_mem_nil, or_false] at hc
  rcases hc with rfl | rfl | rfl | rfl | rfl | rfl | rfl | rfl <;>
    exact nibbleChar_mem _

/-- The digest is 64 characters long. -/
theorem sha256Hex_length (msg : List Nat) : (sha256Hex msg).length = 64 := by
  simp [sha256Hex, wordHex]

/-- Every digest character is a lowercase hex digit. -/
theorem sha256Hex_mem (msg : List Nat) (c : Char) (hc : c ∈ sha256Hex msg) :
    c ∈ hexChars := by
  simp only [sha256Hex, List.mem_append] at hc
  rcases hc with ((((((h | h) | h) | h) | h) | h) | h) | h <;>
    exact mem_wordHex _ _ h

/-! ## Claim C6: the canonical hash -/

/-- C6: `get_hash` is deterministic and independent of field insertion order:
two structured records (objects with distinct field names at every level,
as Python dictionaries are) with identical logical content — equal canonical
forms, i.e. equal up to the order in which fields were inserted — receive the
same digest, and the digest is a fixed-length (64-character) lowercase
hexadecimal string. -/
theorem claim6_canonical_hash (j1 j2 : Json)
    (h1 : Json.nodupKeys j1 = true) (h2 : Json.nodupKeys j2 = true)
    (hc : Json.canon j1 = Json.canon j2) :
    get_hash j1 = get_hash j2 ∧ (get_hash j1).length = 64 ∧
      ∀ c ∈ get_hash j1, c ∈ hexChars := by
  refine ⟨?_, sha256Hex_length _, fun c hc' => sha256Hex_mem _ c hc'⟩
  unfold get_hash
  rw [Json.dumps_eq_of_canon_eq j1 j2 hc]

set_option maxRecDepth 1000000 in
/-- Witness for C6 at two concrete records that differ only in field
insertion order. -/
theorem claim6_witness :
    get_hash (Json.jobjCons kUuid (Json.jstr ['m'])
        (Json.jobjCons kAmount (Json.jint 1) Json.jobjNil))
      = get_hash (Json.jobjCons kAmount (Json.jint 1)
        (Json.jobjCons kUuid (Json.jstr ['m']) Json.jobjNil)) ∧
    (get_hash (Json.jobjCons kUuid (Json.jstr ['m'])
        (Json.jobjCons kAmount (Json.jint 1) Json.jobjNil))).length = 64 ∧
    ∀ c ∈ get_hash (Json.jobjCons kUuid (Json.jstr ['m'])
        (Json.jobjCons kAmount (Json.jint 1) Json.jobjNil)), c ∈ hexChars :=
  claim6_canonical_hash _ _ (by decide) (by decide) (by decide)

/-! ## Round-trip lemmas -/

/-- `Amount.fromdict` inverts `Amount.todict`. -/
theorem amount_fromdict_todict (a : Amount) : Amount.fromdict a.todict = some a := rfl

/-- Decoding a list of encoded amounts recovers the list. -/
theorem amountsFrom_map : ∀ l : List Amount,
    Transaction.amountsFrom (l.map Amount.todict) = some l := by
  intro l
  induction l with
  | nil => rfl
  | cons a rest ih => simp [Transaction.amountsFrom, ih]; rfl

/-- What `Transaction.fromdict` makes of an encoded transaction: the decoded
fields are fed back through the constructor, timestamp truthiness test
included. -/
theorem transaction_fromdict_todict_raw (t : Transaction) (now : Int) :
    Transaction.fromdict t.todict now
      = some (Transaction.init t.inputs t.outputs (some t.timestamp) now) := by
  obtain ⟨ins, outs, ts⟩ := t
  have h1 : (Transaction.todict ⟨ins, outs, ts⟩).jlookup kTimestamp
      = some (Json.jint ts) := rfl
  have h2 : (Transaction.todict ⟨ins, outs, ts⟩).jlookup kInputs
      = some (Json.arrOf (ins.map Amount.todict)) := rfl
  have h3 : (Transaction.todict ⟨ins, outs, ts⟩).jlookup kOutputs
      = some (Json.arrOf (outs.map Amount.todict)) := rfl
  simp only [Transaction.fromdict, h1, h2, h3, Json.jelems_arrOf, amountsFrom_map]

/-- `Transaction.fromdict` inverts `Transaction.todict` whenever the stored
timestamp is truthy — which holds for every transaction the constructor can
produce under a nonzero clock (`transaction_timestamp_ne_zero`). -/
theorem transaction_fromdict_todict (t : Transaction) (now : Int)
    (h : t.timestamp ≠ 0) : Transaction.fromdict t.todict now = some t := by
  rw [transaction_fromdict_todict_raw]
  obtain ⟨ins, outs, ts⟩ := t
  simp only [Transaction.init] at h ⊢
  simp [h]

/-- The constructor never stores timestamp `0` when the clock is nonzero. -/
theorem transaction_timestamp_ne_zero (inputs outputs : List Amount)
    (timestamp : Option Int) (now : Int) (h : now ≠ 0) :
    (Transaction.init inputs outputs timestamp now).timestamp ≠ 0 := by
  simp only [Transaction.init]
  cases timestamp with
  | none => exact h
  | some t =>
    by_cases ht : t = 0
    · simpa [ht] using h
    · simpa [ht] using ht

/-! ## Claim C3: `Amount` and `Transaction` round-trips -/

/-- C3: for every `Amount`, `fromdict (todict a) = a`; for every
`Transaction` with a truthy stored timestamp — which all constructible
transactions have — `fromdict (todict t)` rebuilds `t` exactly, timestamp
included. -/
theorem claim3_roundtrip :
    (∀ a : Amount, Amount.fromdict a.todict = some a) ∧
    (∀ (t : Transaction) (now : Int), t.timestamp ≠ 0 →
      Transaction.fromdict t.todict now = some t) :=
  ⟨amount_fromdict_todict, transaction_fromdict_todict⟩

/-- Witness for C3 at concrete values. -/
theorem claim3_witness :
    Amount.fromdict (Amount.todict ⟨['m'], 3⟩) = some ⟨['m'], 3⟩ ∧
    Transaction.fromdict
        (Transaction.todict ⟨[⟨['m'], 3⟩], [⟨['f'], 2⟩], 9⟩) 7
      = some ⟨[⟨['m'], 3⟩], [⟨['f'], 2⟩], 9⟩ :=
  ⟨claim3_roundtrip.1 ⟨['m'], 3⟩,
   claim3_roundtrip.2 ⟨[⟨['m'], 3⟩], [⟨['f'], 2⟩], 9⟩ 7 (by decide)⟩

/-! ## Claim C10: falsy timestamps are replaced by the clock -/

/-- C10: constructing a `Transaction` with timestamp `0` (not only `None`)
stores the clock value instead; under a nonzero clock no constructed
transaction carries timestamp `0`; every transaction `fromdict` rebuilds has
a nonzero timestamp; and a record whose timestamp field is `0` is not
reproduced by `fromdict`. -/
theorem claim10_falsy_timestamp :
    (∀ (inputs outputs : List Amount) (now : Int),
      (Transaction.init inputs outputs (some 0) now).timestamp = now) ∧
    (∀ (inputs outputs : List Amount) (timestamp : Option Int) (now : Int),
      now ≠ 0 →
      (Transaction.init inputs outputs timestamp now).timestamp ≠ 0) ∧
    (∀ (d : Json) (t : Transaction) (now : Int), now ≠ 0 →
      Transaction.fromdict d now = some t → t.timestamp ≠ 0) ∧
    (∀ (t : Transaction) (now : Int), t.timestamp = 0 → now ≠ 0 →
      Transaction.fromdict t.todict now ≠ some t) := by
  refine ⟨?_, ?_, ?_, ?_⟩
  · intro inputs outputs now
    simp [Transaction.init]
  · intro inputs outputs timestamp now h
    exact transaction_timestamp_ne_zero inputs outputs timestamp now h
  · intro d t now hnow H
    unfold Transaction.fromdict at H
    split at H
    · split at H
      · rename_i ts din dout heq ins outs hins
        injection H with H'
        rw [← H']
        exact transaction_timestamp_ne_zero _ _ _ _ hnow
      · exact absurd H (by simp)
    · exact absurd H (by simp)
  · intro t now h0 hnow H
    rw [transaction_fromdict_todict_raw] at H
    injection H with H'
    have := congrArg Transaction.timestamp H'
    simp only [Transaction.init, h0, if_pos rfl] at this
    simp at this
    exact hnow this

/-- Witness for C10 at concrete values. -/
theorem claim10_witness :
    (Transaction.init [] [] (some 0) 7).timestamp = 7 ∧
    (Transaction.init [] [] (some 0) 7).timestamp ≠ 0 ∧
    ((⟨[], [], 0⟩ : Transaction).timestamp = 0 →
      Transaction.fromdict (Transaction.todict ⟨[], [], 0⟩) 7
        ≠ some ⟨[], [], 0⟩) :=
  ⟨claim10_falsy_timestamp.1 [] [] 7,
   claim10_falsy_timestamp.2.1 [] [] (some 0) 7 (by decide),
   fun h0 => claim10_falsy_timestamp.2.2.2 ⟨[], [], 0⟩ 7 h0 (by decide)⟩

/-! ## Claim C4: `validate_hash` -/

/-- C4: `validate_hash(block, hash)` is true exactly when the claimed hash
equals the digest recomputed fresh from the block with its stored nonce. -/
theorem claim4_validate (b : Block) (h : Str) :
    validate_hash b h = true ↔ h = b.get_hash b.nonce := by
  simp [validate_hash, eq_comm]

/-! ## Claim C8: the digest operation does not mutate the block -/

/-- C8: `Block.get_hash` (through `todict`) is pure: in the state-passing
reading the receiver comes back with every field — `prev_hash`, `txns`,
`nonce`, `difficulty` — unchanged, a second call on the returned block with
the same candidate nonce produces the same hex string, and the digest is the
pure `get_hash` value. -/
theorem claim8_digest_pure (b : Block) (nonce : Option Int) :
    (b.getHashS nonce).1.prev_hash = b.prev_hash ∧
    (b.getHashS nonce).1.txns = b.txns ∧
    (b.getHashS nonce).1.nonce = b.nonce ∧
    (b.getHashS nonce).1.difficulty = b.difficulty ∧
    ((b.getHashS nonce).1.getHashS nonce).2 = (b.getHashS nonce).2 ∧
    (b.getHashS nonce).2 = b.get_hash nonce :=
  ⟨rfl, rfl, rfl, rfl, rfl, rfl⟩

/-! ## Mining lemmas -/

/-- Whatever the mining loop accepts satisfies the difficulty test, and the
returned hash is the block's digest at the returned nonce. -/
theorem mineLoop_sound : ∀ (fuel : Nat) (block : Block) (d : Int) (nonce n : Int) (h : Str),
    mineLoop block d nonce fuel = some (n, h) →
    h = block.get_hash (some n) ∧
      (List.replicate d.toNat '0').isPrefixOf h = true := by
  intro fuel
  induction fuel with
  | zero => intro block d nonce n h H; exact absurd H (by simp [mineLoop])
  | succ f ih =>
    intro block d nonce n h H
    simp only [mineLoop] at H
    split at H
    · rename_i hcond
      simp only [Option.some.injEq, Prod.mk.injEq] at H
      obtain ⟨rfl, rfl⟩ := H
      exact ⟨rfl, hcond⟩
    · exact ih block d (nonce + 1) n h H

/-- Full characterization of a successful `process_txns` call. -/
theorem processTxns_inv (node : Node) (txns : List Transaction)
    (difficulty : Int) (timestamp : Option Int) (now : Int) (fuel : Nat)
    (b : Block) (h : Str) (node' : Node)
    (H : node.processTxns txns difficulty timestamp now fuel = some (b, h, node')) :
    ∃ n : Int,
      b = ⟨node.chainLink, node.coinbase timestamp now :: txns, some n, difficulty⟩ ∧
      h = b.get_hash b.nonce ∧
      (List.replicate difficulty.toNat '0').isPrefixOf h = true ∧
      node' = ⟨node.uuid, node.blocks ++ [b]⟩ := by
  simp only [Node.processTxns] at H
  split at H
  · rename_i n h0 hmine
    simp only [Option.some.injEq, Prod.mk.injEq] at H
    obtain ⟨hb, hh, hn⟩ := H
    obtain ⟨hdig, hpre⟩ := mineLoop_sound fuel _ difficulty 0 n h0 hmine
    refine ⟨n, hb.symm, ?_, ?_, ?_⟩
    · rw [← hh, ← hb]
      exact hdig
    · rw [← hh]; exact hpre
    · rw [← hn, ← hb]
  · exact absurd H (by simp)

/-! ## Claim C1: proof-of-work invariant of appended blocks -/

/-- C1: every block a successful `process_txns` call returns (and appends to
the chain) has a digest, recomputed from the block with its stored nonce,
that starts with `difficulty` consecutive `'0'` hex characters. -/
theorem claim1_pow_invariant (node : Node) (txns : List Transaction)
    (difficulty : Int) (timestamp : Option Int) (now : Int) (fuel : Nat)
    (b : Block) (h : Str) (node' : Node)
    (H : node.processTxns txns difficulty timestamp now fuel = some (b, h, node')) :
    (List.replicate difficulty.toNat '0').isPrefixOf (b.get_hash b.nonce) = true ∧
    b.difficulty = difficulty ∧
    node'.blocks = node.blocks ++ [b] := by
  obtain ⟨n, hb, hh, hpre, hnode⟩ :=
    processTxns_inv node txns difficulty timestamp now fuel b h node' H
  refine ⟨?_, ?_, ?_⟩
  · rw [← hh]; exact hpre
  · rw [hb]
  · rw [hnode]

set_option maxRecDepth 1000000 in
/-- Witness for C1: a concrete difficulty-1 mining run. -/
theorem claim1_witness : ∃ (b : Block) (h : Str) (node' : Node),
    Node.processTxns (Node.init ['m']) [] 1 (some 5) 7 1 = some (b, h, node') ∧
    (List.replicate (1 : Int).toNat '0').isPrefixOf (b.get_hash b.nonce) = true := by
  have hs : (Node.processTxns (Node.init ['m']) [] 1 (some 5) 7 1).isSome = true := by
    decide
  have e : Node.processTxns (Node.init ['m']) [] 1 (some 5) 7 1 =
      some ((Node.processTxns (Node.init ['m']) [] 1 (some 5) 7 1).get hs) :=
    (Option.some_get hs).symm
  exact ⟨_, _, _, e, (claim1_pow_invariant _ _ _ _ _ _ _ _ _ e).1⟩

/-! ## Claim C2: the backward link reuses the tail's `prev_hash` field -/

/-- C2: a mined block's `prev_hash` is the chain tail's own `prev_hash`
field — not the tail's digest — and the empty string when the chain is
empty; consequently mining twice from an empty chain gives a chain of length
2 whose second block carries the first block's `prev_hash` field. -/
theorem claim2_prev_link :
    (∀ (node : Node) (txns : List Transaction) (difficulty : Int)
      (timestamp : Option Int) (now : Int) (fuel : Nat)
      (b : Block) (h : Str) (node' : Node),
      node.processTxns txns difficulty timestamp now fuel = some (b, h, node') →
      (node.blocks = [] → b.prev_hash = []) ∧
      (∀ p, node.blocks.getLast? = some p → b.prev_hash = p.prev_hash)) ∧
    (∀ (node0 : Node) (t1 : List Transaction) (d1 : Int) (ts1 : Option Int)
      (now1 : Int) (f1 : Nat) (b1 : Block) (h1 : Str) (n1 : Node)
      (t2 : List Transaction) (d2 : Int) (ts2 : Option Int) (now2 : Int)
      (f2 : Nat) (b2 : Block) (h2 : Str) (n2 : Node),
      node0.blocks = [] →
      node0.processTxns t1 d1 ts1 now1 f1 = some (b1, h1, n1) →
      n1.processTxns t2 d2 ts2 now2 f2 = some (b2, h2, n2) →
      n2.blocks.length = 2 ∧ b2.prev_hash = b1.prev_hash) := by
  constructor
  · intro node txns difficulty timestamp now fuel b h node' H
    obtain ⟨n, hb, -, -, -⟩ :=
      processTxns_inv node txns difficulty timestamp now fuel b h node' H
    constructor
    · intro hempty
      rw [hb]
      simp [Node.chainLink, hempty]
    · intro p hp
      rw [hb]
      simp [Node.chainLink, hp]
  · intro node0 t1 d1 ts1 now1 f1 b1 h1 n1 t2 d2 ts2 now2 f2 b2 h2 n2
      hempty H1 H2
    obtain ⟨m1, hb1, -, -, hn1⟩ :=
      processTxns_inv node0 t1 d1 ts1 now1 f1 b1 h1 n1 H1
    obtain ⟨m2, hb2, -, -, hn2⟩ :=
      processTxns_inv n1 t2 d2 ts2 now2 f2 b2 h2 n2 H2
    have hblocks1 : n1.blocks = [b1] := by
      rw [hn1]; simp [hempty]
    constructor
    · rw [hn2, hblocks1]
      simp
    · rw [hb2]
      simp [Node.chainLink, hblocks1]

set_option maxRecDepth 1000000 in
/-- Witness for C2: two concrete difficulty-0 mining runs from an empty
chain. -/
theorem claim2_witness : ∃ (b1 : Block) (h1 : Str) (n1 : Node)
    (b2 : Block) (h2 : Str) (n2 : Node),
    Node.processTxns (Node.init ['m']) [] 0 (some 5) 7 1 = some (b1, h1, n1) ∧
    Node.processTxns n1 [] 0 (some 5) 9 1 = some (b2, h2, n2) ∧
    n2.blocks.length = 2 ∧ b2.prev_hash = b1.prev_hash := by
  have e1 : Node.processTxns (Node.init ['m']) [] 0 (some 5) 7 1 =
      some ((Node.processTxns (Node.init ['m']) [] 0 (some 5) 7 1).getD
        (⟨[], [], none, 0⟩, [], ⟨[], []⟩)) := by decide
  have e2 : Node.processTxns
      ((Node.processTxns (Node.init ['m']) [] 0 (some 5) 7 1).getD
        (⟨[], [], none, 0⟩, [], ⟨[], []⟩)).2.2 [] 0 (some 5) 9 1 =
      some ((Node.processTxns
        ((Node.processTxns (Node.init ['m']) [] 0 (some 5) 7 1).getD
          (⟨[], [], none, 0⟩, [], ⟨[], []⟩)).2.2 [] 0 (some 5) 9 1).getD
        (⟨[], [], none, 0⟩, [], ⟨[], []⟩)) := by decide
  refine ⟨_, _, _, _, _, _, e1, e2, ?_⟩
  exact claim2_prev_link.2 _ _ _ _ _ _ _ _ _ _ _ _ _ _ _ _ _ rfl e1 e2

/-! ## Claim C5: the genesis case -/

/-- C5: mining an empty batch on a node with an empty chain yields a block
whose `prev_hash` is the empty string and whose transaction list is exactly
one coinbase — empty inputs, a single output crediting the node's identity
the fixed reward `MINING_COST = 1` — inserted at index 0. -/
theorem claim5_genesis (node : Node) (difficulty : Int)
    (timestamp : Option Int) (now : Int) (fuel : Nat)
    (b : Block) (h : Str) (node' : Node)
    (hempty : node.blocks = [])
    (H : node.processTxns [] difficulty timestamp now fuel = some (b, h, node')) :
    b.prev_hash = [] ∧
    b.txns = [Transaction.init [] [⟨node.uuid, MINING_COST⟩] timestamp now] ∧
    MINING_COST = 1 := by
  obtain ⟨n, hb, -, -, -⟩ :=
    processTxns_inv node [] difficulty timestamp now fuel b h node' H
  refine ⟨?_, ?_, rfl⟩
  · rw [hb]
    simp [Node.chainLink, hempty]
  · rw [hb]
    rfl

set_option maxRecDepth 1000000 in
/-- Witness for C5: a concrete genesis mining run. -/
theorem claim5_witness : ∃ (b : Block) (h : Str) (node' : Node),
    Node.processTxns (Node.init ['m']) [] 0 (some 5) 7 1 = some (b, h, node') ∧
    b.prev_hash = [] ∧
    b.txns = [Transaction.init [] [⟨['m'], MINING_COST⟩] (some 5) 7] := by
  have hs : (Node.processTxns (Node.init ['m']) [] 0 (some 5) 7 1).isSome = true := by
    decide
  have e : Node.processTxns (Node.init ['m']) [] 0 (some 5) 7 1 =
      some ((Node.processTxns (Node.init ['m']) [] 0 (some 5) 7 1).get hs) :=
    (Option.some_get hs).symm
  have hc := claim5_genesis (Node.init ['m']) 0 (some 5) 7 1 _ _ _ rfl e
  exact ⟨_, _, _, e, hc.1, hc.2.1⟩

/-! ## Claim C7: chain persistence round-trip -/

/-- Decoding a list of encoded transactions with truthy timestamps recovers
the list. -/
theorem txnsFrom_map (now : Int) : ∀ (l : List Transaction),
    (∀ t ∈ l, t.timestamp ≠ 0) →
    Block.txnsFrom now (l.map Transaction.todict) = some l := by
  intro l
  induction l with
  | nil => intro _; rfl
  | cons t rest ih =>
    intro h
    have ht := h t (List.mem_cons_self t rest)
    have hrest := ih (fun x hx => h x (List.mem_cons_of_mem t hx))
    simp [Block.txnsFrom, transaction_fromdict_todict t now ht, hrest]

/-- `Block.fromdict` inverts `Block.todict` up to the stored nonce, which is
not restored (the known schema gap): the result is the original block with
`nonce = None`. -/
theorem block_fromdict_todict (b : Block) (now : Int)
    (hts : ∀ t ∈ b.txns, t.timestamp ≠ 0) :
    Block.fromdict (b.todict none) now = some { b with nonce := none } := by
  obtain ⟨ph, txs, non, diff⟩ := b
  show (match Block.txnsFrom now (Json.jelems (Json.arrOf (txs.map Transaction.todict))) with
    | some ts => some (Block.init ts ph diff)
    | none => none) = some ⟨ph, txs, none, diff⟩
  rw [Json.jelems_arrOf, txnsFrom_map now txs hts]
  rfl

/-- C7: storing a chain and loading it back (`to_db` then `from_db`)
succeeds and reproduces, block by block and in order, a block equal to the
original under `Block.__eq__` (`prev_hash` and `txns`) with the same
`difficulty`; precisely, each block comes back with every field intact
except `nonce`, which is reset to `None`.  The timestamp hypothesis holds
for every transaction constructible under a nonzero clock. -/
theorem claim7_chain_roundtrip (blocks : List Block) (now : Int)
    (hts : ∀ b ∈ blocks, ∀ t ∈ b.txns, t.timestamp ≠ 0) :
    from_db (to_db blocks) now
      = some (blocks.map (fun b => { b with nonce := none })) ∧
    List.Forall₂
      (fun orig re => Block.beq orig re = true ∧ re.difficulty = orig.difficulty)
      blocks (blocks.map (fun b => { b with nonce := none })) := by
  constructor
  · induction blocks with
    | nil => rfl
    | cons b rest ih =>
      have hb := hts b (List.mem_cons_self b rest)
      have hrest := ih (fun x hx => hts x (List.mem_cons_of_mem b hx))
      simp [to_db, from_db, block_fromdict_todict b now hb]
      simp [to_db] at hrest
      simp [hrest]
  · induction blocks with
    | nil => simp
    | cons b rest ih =>
      have hrest := ih (fun x hx => hts x (List.mem_cons_of_mem b hx))
      simp only [List.map_cons]
      refine List.Forall₂.cons ⟨?_, rfl⟩ hrest
      simp [Block.beq]

/-- Witness for C7 at a concrete one-block chain. -/
theorem claim7_witness :
    from_db (to_db [⟨['p'], [⟨[], [⟨['m'], 1⟩], 5⟩], some 3, 2⟩]) 7
      = some [⟨['p'], [⟨[], [⟨['m'], 1⟩], 5⟩], none, 2⟩] ∧
    List.Forall₂
      (fun orig re => Block.beq orig re = true ∧ re.difficulty = orig.difficulty)
      [⟨['p'], [⟨[], [⟨['m'], 1⟩], 5⟩], some 3, 2⟩]
      [⟨['p'], [⟨[], [⟨['m'], 1⟩], 5⟩], none, 2⟩] :=
  claim7_chain_roundtrip [⟨['p'], [⟨[], [⟨['m'], 1⟩], 5⟩], some 3, 2⟩] 7
    (by decide)

/-! ## Claim C9: `process_txns` mutates the caller's list in place -/

/-- C9: in the aliasing model, a successful `process_txns` call rewrites the
caller's transaction-list object in place — afterwards the very cell the
caller passed holds the coinbase at index 0 followed by the originally
supplied transactions, each shifted one position — and the returned block's
`txns` field is a reference to that same cell. -/
theorem claim9_inplace_mutation (node : NodeR) (r : Nat) (st : Store)
    (difficulty : Int) (timestamp : Option Int) (now : Int) (fuel : Nat)
    (b : BlockR) (h : Str) (node' : NodeR) (st' : Store)
    (hr : r < st.cells.length)
    (H : node.processTxnsR r st difficulty timestamp now fuel
      = some (b, h, node', st')) :
    st'.deref r
      = Transaction.init [] [⟨node.uuid, MINING_COST⟩] timestamp now
        :: st.deref r ∧
    b.txnsRef = r := by
  simp only [NodeR.processTxnsR] at H
  split at H
  · simp only [Option.some.injEq, Prod.mk.injEq] at H
    obtain ⟨hb, -, -, hst⟩ := H
    constructor
    · rw [← hst]
      simp [Store.deref, Store.write, List.getD_eq_getElem, hr]
    · rw [← hb]
  · exact absurd H (by simp)

set_option maxRecDepth 1000000 in
/-- Witness for C9: a concrete call with one stored list cell. -/
theorem claim9_witness : ∃ (b : BlockR) (h : Str) (node' : NodeR) (st' : Store),
    NodeR.processTxnsR ⟨['m'], []⟩ 0 ⟨[[]]⟩ 0 (some 5) 7 1
      = some (b, h, node', st') ∧
    st'.deref 0 = [Transaction.init [] [⟨['m'], MINING_COST⟩] (some 5) 7] ∧
    b.txnsRef = 0 := by
  have e : NodeR.processTxnsR ⟨['m'], []⟩ 0 ⟨[[]]⟩ 0 (some 5) 7 1 =
      some ((NodeR.processTxnsR ⟨['m'], []⟩ 0 ⟨[[]]⟩ 0 (some 5) 7 1).getD
        (⟨[], 0, none, 0⟩, [], ⟨[], []⟩, ⟨[]⟩)) := by decide
  have hc := claim9_inplace_mutation ⟨['m'], []⟩ 0 ⟨[[]]⟩ 0 (some 5) 7 1
    _ _ _ _ (by decide) e
  exact ⟨_, _, _, _, e, hc.1, hc.2⟩
